import Mathlib

/-!
Verification of the atlas-agents speech pipeline core.

Shallow embedding of the TypeScript sources:
  packages/speech-tts/src/TTSService.ts          (splitIntoSegments, stop)
  packages/speech-tts/src/visemePreprocessor.ts  (textToVisemes)
  packages/speech-tts-local/src/LocalTTSService.ts
      (synthesize timeout, handleMessage, ensureWebSocket, processSegmentQueue, stop)
  the TTSCache class and the LocalSTTService class (start/stop/ensureWebSocket).

Strings are modelled as `List Char`; JavaScript numbers that carry exact
decimal constants (durations, weights) are modelled as `ℚ`; `Date.now()`
timestamps as `ℕ` passed explicitly.
-/

namespace Atlas

/-! ## JavaScript whitespace and trimming

`\s` in a JavaScript regular expression and `String.prototype.trim` both
use the WhiteSpace ∪ LineTerminator character set. -/

def jsWhitespaceChars : List Char :=
  [' ', '\t', '\n', '\u000b', '\u000c', '\r', '\u00a0', '\u1680',
   '\u2000', '\u2001', '\u2002', '\u2003', '\u2004', '\u2005', '\u2006',
   '\u2007', '\u2008', '\u2009', '\u200a',
   '\u2028', '\u2029', '\u202f', '\u205f', '\u3000', '\ufeff']

def jsWhitespace (c : Char) : Bool := jsWhitespaceChars.contains c

/-- JavaScript line terminators: `.` in a regex does not match these. -/
def isLineTerm (c : Char) : Bool := ['\n', '\r', '\u2028', '\u2029'].contains c

/-- `String.prototype.trim`. -/
def jsTrim (l : List Char) : List Char :=
  ((l.dropWhile jsWhitespace).reverse.dropWhile jsWhitespace).reverse

/-- The non-whitespace characters of a string, in order. -/
def stripWS (l : List Char) : List Char := l.filter (fun c => !jsWhitespace c)

theorem stripWS_append (a b : List Char) :
    stripWS (a ++ b) = stripWS a ++ stripWS b :=
  List.filter_append ..

theorem stripWS_dropWhile (l : List Char) :
    stripWS (l.dropWhile jsWhitespace) = stripWS l := by
  induction l with
  | nil => rfl
  | cons c rest ih =>
    by_cases h : jsWhitespace c = true <;>
      simp [stripWS, List.dropWhile_cons, List.filter_cons, h] at ih ⊢ <;>
      simpa [stripWS] using ih

theorem stripWS_reverse (l : List Char) :
    stripWS l.reverse = (stripWS l).reverse := by
  simp [stripWS, List.filter_reverse]

theorem stripWS_jsTrim (l : List Char) : stripWS (jsTrim l) = stripWS l := by
  unfold jsTrim
  rw [stripWS_reverse, stripWS_dropWhile, stripWS_reverse, List.reverse_reverse,
    stripWS_dropWhile]

theorem length_dropWhile_le (p : Char → Bool) (l : List Char) :
    (l.dropWhile p).length ≤ l.length := by
  induction l with
  | nil => simp
  | cons c rest ih =>
    by_cases h : p c = true <;> simp [List.dropWhile_cons, h] <;> omega

theorem jsTrim_length_le (l : List Char) : (jsTrim l).length ≤ l.length := by
  unfold jsTrim
  calc ((l.dropWhile jsWhitespace).reverse.dropWhile jsWhitespace).reverse.length
      = ((l.dropWhile jsWhitespace).reverse.dropWhile jsWhitespace).length := by
        simp
    _ ≤ (l.dropWhile jsWhitespace).reverse.length := length_dropWhile_le ..
    _ = (l.dropWhile jsWhitespace).length := by simp
    _ ≤ l.length := length_dropWhile_le ..

/-! ## The segment splitter

`splitIntoSegments` of TTSService.ts (identical code in LocalTTSService.ts,
with the literals 200 / 50 read from configuration, defaults 200 / 50).
The lazy anchored regex `/^.+?[.!?](?:\s+|$)/` matches the shortest prefix
of one-or-more non-line-terminator characters followed by a terminal
punctuation character that is itself followed by a maximal whitespace run
or the end of the string.  `scanB` computes the length of that match. -/

def wsRun : List Char → ℕ
  | [] => 0
  | c :: rest => if jsWhitespace c then wsRun rest + 1 else 0

/-- Whether `(?:\s+|$)` can start here (used only to pick the match end;
    the consumed whitespace length is `wsRun`). -/
def nextOkWS : List Char → Bool
  | [] => true
  | d :: _ => jsWhitespace d

/-- Length of the lazy match of `/^.+?[p](?:\s+|$)/` starting `consumed`
    characters in, or `none` if the regex does not match. -/
def scanB (punct : List Char) : List Char → ℕ → Option ℕ
  | [], _ => none
  | c :: rest, consumed =>
    if punct.contains c ∧ 1 ≤ consumed ∧ nextOkWS rest then
      some (consumed + 1 + wsRun rest)
    else if isLineTerm c then none
    else scanB punct rest (consumed + 1)

def sentencePunct : List Char := ['.', '!', '?']

def clausePunct : List Char := [';', ',']

/-- `remaining.match(regex)` followed by the slice at the match length. -/
def trySplit (punct : List Char) (cs : List Char) : Option (List Char × List Char) :=
  match scanB punct cs 0 with
  | some n => some (cs.take n, cs.drop n)
  | none => none

/-- `remaining.lastIndexOf(' ', bound)`: the greatest index `i ≤ bound`
    holding a space, if any. -/
def lastSpaceLE (cs : List Char) (bound : ℕ) : Option ℕ :=
  (List.range (bound + 1)).foldl
    (fun acc i => if cs.get? i = some ' ' then some i else acc) none

theorem wsRun_le (l : List Char) : wsRun l ≤ l.length := by
  induction l with
  | nil => simp [wsRun]
  | cons c rest ih => by_cases h : jsWhitespace c = true <;> simp [wsRun, h] <;> omega

theorem scanB_bounds (punct : List Char) :
    ∀ (cs : List Char) (k n : ℕ), scanB punct cs k = some n →
      k + 1 ≤ n ∧ n ≤ k + cs.length := by
  intro cs
  induction cs with
  | nil => intro k n h; simp [scanB] at h
  | cons c rest ih =>
    intro k n h
    simp only [scanB] at h
    split at h
    · have hw := wsRun_le rest
      cases h
      constructor <;> simp <;> omega
    · split at h
      · cases h
      · have := ih (k + 1) n h
        simp only [List.length_cons]
        omega

theorem trySplit_spec (punct cs m rest : List Char)
    (h : trySplit punct cs = some (m, rest)) :
    m ++ rest = cs ∧ rest.length < cs.length := by
  unfold trySplit at h
  cases hs : scanB punct cs 0 with
  | none => rw [hs] at h; cases h
  | some n =>
    rw [hs] at h
    obtain ⟨b1, b2⟩ := scanB_bounds punct cs 0 n hs
    cases h
    refine ⟨List.take_append_drop n cs, ?_⟩
    simp only [List.length_drop]
    omega

/-- The `while (remaining.length > 0)` loop of `splitIntoSegments`,
    with a fuel argument bounding the number of iterations (each
    iteration strictly shortens `remaining`, so `length + 1` fuel
    always suffices). -/
def splitGoF (maxLen minSplit : ℕ) : ℕ → List Char → List (List Char)
  | 0, _ => []
  | fuel + 1, cs =>
    if cs = [] then []
    else
      match trySplit sentencePunct cs with
      | some (m, rest) => jsTrim m :: splitGoF maxLen minSplit fuel (jsTrim rest)
      | none =>
        match trySplit clausePunct cs with
        | some (m, rest) => jsTrim m :: splitGoF maxLen minSplit fuel (jsTrim rest)
        | none =>
          if maxLen < cs.length then
            match lastSpaceLE cs maxLen with
            | some si =>
              if minSplit < si then
                jsTrim (cs.take si) :: splitGoF maxLen minSplit fuel (jsTrim (cs.drop si))
              else [cs]
            | none => [cs]
          else [cs]

/-- `splitIntoSegments(text)`.  `maxLen` / `minSplit` are 200 / 50 in
    TTSService.ts and `tts.maxSegmentLength` / `tts.minSplitIndex`
    (defaults 200 / 50) in LocalTTSService.ts.  The buffer is fully
    consumed: the caller (`flushChunkBuffer`) clears the buffer, so the
    remainder after a flush is always the empty string. -/
def splitIntoSegments (maxLen minSplit : ℕ) (text : List Char) : List (List Char) :=
  (splitGoF maxLen minSplit (text.length + 1) (jsTrim text)).filter
    (fun s => 0 < s.length)

theorem join_filter_pos (L : List (List Char)) :
    List.flatten (L.filter (fun s => 0 < s.length)) = List.flatten L := by
  induction L with
  | nil => rfl
  | cons a L ih =>
    by_cases h : 0 < a.length
    · simp [List.filter_cons, h, ih]
    · have ha : a = [] := List.eq_nil_of_length_eq_zero (by omega)
      simp [List.filter_cons, h, ha, ih]

theorem splitGoF_stripWS (maxLen minSplit : ℕ) :
    ∀ (fuel : ℕ) (cs : List Char), cs.length < fuel →
      stripWS (List.flatten (splitGoF maxLen minSplit fuel cs)) = stripWS cs := by
  intro fuel
  induction fuel with
  | zero => intro cs h; exact absurd h (Nat.not_lt_zero _)
  | succ fuel ih =>
    intro cs hlen
    by_cases hcs : cs = []
    · subst hcs; simp [splitGoF]
    · rw [splitGoF, if_neg hcs]
      cases h1 : trySplit sentencePunct cs with
      | some pr =>
        obtain ⟨m, rest⟩ := pr
        obtain ⟨happ, hlt⟩ := trySplit_spec _ _ _ _ h1
        have hrec : (jsTrim rest).length < fuel := by
          have := jsTrim_length_le rest; omega
        simp only [List.flatten_cons]
        rw [stripWS_append, stripWS_jsTrim, ih _ hrec, stripWS_jsTrim,
          ← stripWS_append, happ]
      | none =>
        cases h2 : trySplit clausePunct cs with
        | some pr =>
          obtain ⟨m, rest⟩ := pr
          obtain ⟨happ, hlt⟩ := trySplit_spec _ _ _ _ h2
          have hrec : (jsTrim rest).length < fuel := by
            have := jsTrim_length_le rest; omega
          simp only [List.flatten_cons]
          rw [stripWS_append, stripWS_jsTrim, ih _ hrec, stripWS_jsTrim,
            ← stripWS_append, happ]
        | none =>
          by_cases h3 : maxLen < cs.length
          · rw [if_pos h3]
            cases h4 : lastSpaceLE cs maxLen with
            | some si =>
              dsimp only
              by_cases h5 : minSplit < si
              · rw [if_pos h5]
                have hpos : 0 < cs.length := List.length_pos.mpr hcs
                have hrec : (jsTrim (cs.drop si)).length < fuel := by
                  have h6 := jsTrim_length_le (cs.drop si)
                  simp only [List.length_drop] at h6
                  omega
                simp only [List.flatten_cons]
                rw [stripWS_append, stripWS_jsTrim, ih _ hrec, stripWS_jsTrim,
                  ← stripWS_append, List.take_append_drop]
              · rw [if_neg h5]; simp
            | none => simp
          · rw [if_neg h3]; simp

/-- C1 (amended): the splitter never drops or reorders a non-whitespace
    character — the concatenation of the returned segments, in order,
    equals the input with whitespace removed (the remainder is always
    empty; whitespace at segment boundaries is trimmed away). -/
theorem splitIntoSegments_preserves_nonWhitespace (maxLen minSplit : ℕ)
    (text : List Char) :
    stripWS (List.flatten (splitIntoSegments maxLen minSplit text)) = stripWS text := by
  unfold splitIntoSegments
  rw [join_filter_pos,
    splitGoF_stripWS maxLen minSplit (text.length + 1) (jsTrim text)
      (lt_of_le_of_lt (jsTrim_length_le text) (Nat.lt_succ_self _))]
  exact stripWS_jsTrim text

/-- C1 counterexample: with the default limits, splitting "Hi. Bye."
    yields segments ["Hi.", "Bye."] and an empty remainder, whose
    concatenation "Hi.Bye." is not the input: the whitespace between
    sentences (and at the ends) is dropped. -/
theorem splitIntoSegments_not_exact :
    List.flatten (splitIntoSegments 200 50 "Hi. Bye.".toList) ++ [] ≠
      "Hi. Bye.".toList := by
  decide

/-! ## The viseme generator

`textToVisemes` of visemePreprocessor.ts.  The module-level memo cache
(`visemeCache`) only replays a previously computed value for the same
`(text, duration)` key, so it is semantically transparent and not part
of the embedding.  Durations and weights are exact rationals. -/

inductive VisemeName
  | sil | PP | FF | TH | DD | kk | CH | SS | nn | RR | aa | E | ih | oh | ou
deriving DecidableEq

/-- `PHONEME_TO_VISEME`, single-character keys (argument already lowered). -/
def phonemeSingle : Char → Option VisemeName
  | 'p' => some .PP | 'b' => some .PP | 'm' => some .PP
  | 'f' => some .FF | 'v' => some .FF
  | 't' => some .DD | 'd' => some .DD
  | 'k' => some .kk | 'g' => some .kk
  | 'j' => some .CH
  | 's' => some .SS | 'z' => some .SS
  | 'n' => some .nn
  | 'r' => some .RR | 'l' => some .RR
  | 'w' => some .ou | 'y' => some .ih
  | 'a' => some .aa | 'e' => some .E | 'i' => some .ih | 'o' => some .oh
  | 'u' => some .ou
  | 'h' => some .sil | 'x' => some .kk | 'q' => some .kk | 'c' => some .kk
  | _ => none

/-- `PHONEME_TO_VISEME`, two-character keys (arguments already lowered). -/
def phonemeDigraph : Char → Char → Option VisemeName
  | 't', 'h' => some .TH
  | 'c', 'h' => some .CH
  | 's', 'h' => some .CH
  | 'z', 'h' => some .CH
  | 'n', 'g' => some .nn
  | _, _ => none

/-- `VOWEL_COMBINATIONS` (arguments already lowered). -/
def vowelCombination : Char → Char → Option VisemeName
  | 'e', 'e' => some .ih | 'e', 'a' => some .ih
  | 'o', 'o' => some .ou | 'o', 'u' => some .ou | 'o', 'w' => some .ou
  | 'a', 'i' => some .E | 'a', 'y' => some .E
  | 'e', 'i' => some .E | 'e', 'y' => some .E
  | 'o', 'a' => some .oh | 'o', 'e' => some .oh
  | 'i', 'e' => some .ih
  | 'o', 'i' => some .oh | 'o', 'y' => some .oh
  | 'a', 'u' => some .aa | 'a', 'w' => some .aa
  | _, _ => none

/-- Single-character fallback of `getVisemeForChar`: table lookup, then
    whitespace maps to silence, then any unknown character to silence. -/
def singleViseme (c : Char) : VisemeName :=
  match phonemeSingle c.toLower with
  | some v => v
  | none => if jsWhitespace c then .sil else .sil

/-- `getVisemeForChar(char, nextChar)`: viseme plus consumed count. -/
def getVisemeForChar (c : Char) (next : Option Char) : VisemeName × ℕ :=
  match next with
  | some d =>
    match vowelCombination c.toLower d.toLower with
    | some v => (v, 2)
    | none =>
      match phonemeDigraph c.toLower d.toLower with
      | some v => (v, 2)
      | none => (singleViseme c, 1)
  | none => (singleViseme c, 1)

/-- First pass of `textToVisemes`: left-to-right scan, consuming one or
    two characters per emitted viseme (two exactly when a digraph hit). -/
def visemeScan : List Char → List VisemeName
  | [] => []
  | c :: rest =>
    match rest with
    | [] => [(getVisemeForChar c none).1]
    | d :: rest2 =>
      let r := getVisemeForChar c (some d)
      if r.2 = 2 then r.1 :: visemeScan rest2
      else r.1 :: visemeScan (d :: rest2)

structure VisemeData where
  name : VisemeName
  weight : ℚ
  duration : ℚ
deriving DecidableEq

/-- The weight chain of the second pass of `textToVisemes`. -/
def baseWeight : VisemeName → ℚ
  | .sil => 0
  | .aa => 1 | .oh => 1 | .ou => 1
  | .E => 4/5 | .ih => 4/5
  | .PP => 3/5 | .FF => 3/5
  | _ => 7/10

/-- Second pass of `textToVisemes`: assign weights (with the 0.7 damping
    factor for a repeated non-silence viseme) and the uniform duration. -/
def assignWeights (tpv : ℚ) : VisemeName → List VisemeName → List VisemeData
  | _, [] => []
  | prev, v :: rest =>
    let w0 := baseWeight v
    let w := if v = prev ∧ v ≠ .sil then w0 * (7/10) else w0
    ⟨v, w, tpv⟩ :: assignWeights tpv v rest

/-- `visemes.unshift({name: sil, weight: 0, duration: 0.05})` when the
    sequence is non-empty and does not already start with silence. -/
def padStart (l : List VisemeData) : List VisemeData :=
  match l with
  | [] => []
  | x :: _ => if x.name ≠ .sil then ⟨.sil, 0, 1/20⟩ :: l else l

/-- `visemes.push({name: sil, weight: 0, duration: 0.1})` when the
    sequence is non-empty and does not already end with silence. -/
def padEnd (l : List VisemeData) : List VisemeData :=
  match l.getLast? with
  | none => l
  | some x => if x.name ≠ .sil then l ++ [⟨.sil, 0, 1/10⟩] else l

/-- `textToVisemes(text, duration?)`. -/
def textToVisemes (text : List Char) (duration : Option ℚ) : List VisemeData :=
  if jsTrim text = [] then []
  else
    let totalDuration := duration.getD ((text.length : ℚ) * (2/25))
    let chars := visemeScan text
    let timePerViseme := if 0 < chars.length then totalDuration / chars.length else 0
    padEnd (padStart (assignWeights timePerViseme .sil chars))

def sumDur (l : List VisemeData) : ℚ := (l.map VisemeData.duration).sum

theorem visemeScan_ne_nil (text : List Char) (h : text ≠ []) :
    visemeScan text ≠ [] := by
  cases text with
  | nil => exact absurd rfl h
  | cons c rest =>
    cases rest with
    | nil => simp [visemeScan]
    | cons d rest2 =>
      rw [visemeScan]
      by_cases h2 : (getVisemeForChar c (some d)).2 = 2 <;> simp [h2]

theorem sumDur_assignWeights (tpv : ℚ) :
    ∀ (vs : List VisemeName) (prev : VisemeName),
      sumDur (assignWeights tpv prev vs) = tpv * vs.length := by
  intro vs
  induction vs with
  | nil => intro prev; simp [assignWeights, sumDur]
  | cons v rest ih =>
    intro prev
    simp only [assignWeights, sumDur, List.map_cons, List.sum_cons, List.length_cons]
    have := ih v
    simp only [sumDur] at this
    rw [this]
    push_cast
    ring

theorem padStart_sum (l : List VisemeData) :
    ∃ e : ℚ, sumDur (padStart l) = sumDur l + e ∧ 0 ≤ e ∧ e ≤ 1/20 := by
  cases l with
  | nil => exact ⟨0, by simp [padStart], by norm_num, by norm_num⟩
  | cons x rest =>
    by_cases h : x.name ≠ VisemeName.sil
    · exact ⟨1/20, by simp [padStart, h, sumDur]; ring, by norm_num, le_refl _⟩
    · exact ⟨0, by simp [padStart, h], by norm_num, by norm_num⟩

theorem padEnd_sum (l : List VisemeData) :
    ∃ e : ℚ, sumDur (padEnd l) = sumDur l + e ∧ 0 ≤ e ∧ e ≤ 1/10 := by
  unfold padEnd
  cases hl : l.getLast? with
  | none => exact ⟨0, by simp, by norm_num, by norm_num⟩
  | some x =>
    by_cases h : x.name ≠ VisemeName.sil
    · refine ⟨1/10, ?_, by norm_num, le_refl _⟩
      simp [h, sumDur]
    · exact ⟨0, by simp [h], by norm_num, by norm_num⟩

theorem padStart_ne_nil (l : List VisemeData) (h : l ≠ []) : padStart l ≠ [] := by
  cases l with
  | nil => exact absurd rfl h
  | cons x rest => by_cases h2 : x.name ≠ VisemeName.sil <;> simp [padStart, h2]

theorem padEnd_ne_nil (l : List VisemeData) (h : l ≠ []) : padEnd l ≠ [] := by
  unfold padEnd
  cases hl : l.getLast? with
  | none => simpa using h
  | some x => by_cases h2 : x.name ≠ VisemeName.sil <;> simp [h2, h]

theorem padStart_head (l : List VisemeData) (h : l ≠ []) :
    (padStart l).head?.map VisemeData.name = some VisemeName.sil := by
  cases l with
  | nil => exact absurd rfl h
  | cons x rest =>
    by_cases h2 : x.name ≠ VisemeName.sil
    · simp [padStart, h2]
    · push_neg at h2
      simp [padStart, h2]

theorem padEnd_head (l : List VisemeData) (h : l ≠ []) :
    (padEnd l).head? = l.head? := by
  unfold padEnd
  cases hl : l.getLast? with
  | none => rfl
  | some x =>
    by_cases h2 : x.name ≠ VisemeName.sil <;> simp [h2]
    cases l with
    | nil => exact absurd rfl h
    | cons y rest => simp

theorem padStart_getLast (l : List VisemeData) (h : l ≠ []) :
    (padStart l).getLast? = l.getLast? := by
  cases l with
  | nil => exact absurd rfl h
  | cons x rest =>
    by_cases h2 : x.name ≠ VisemeName.sil
    · simp only [padStart, if_pos h2]
      rw [List.getLast?_cons_cons]
    · simp [padStart, h2]

theorem padEnd_getLast (l : List VisemeData) (h : l ≠ []) :
    (padEnd l).getLast?.map VisemeData.name = some VisemeName.sil := by
  unfold padEnd
  cases hl : l.getLast? with
  | none => exact absurd (List.getLast?_eq_none_iff.mp hl) h
  | some x =>
    by_cases h2 : x.name ≠ VisemeName.sil
    · simp [h2]
    · push_neg at h2
      simp [h2, hl]

theorem assignWeights_ne_nil (tpv : ℚ) (prev : VisemeName) (vs : List VisemeName)
    (h : vs ≠ []) : assignWeights tpv prev vs ≠ [] := by
  cases vs with
  | nil => exact absurd rfl h
  | cons v rest => simp [assignWeights]

theorem textToVisemes_eq (text : List Char) (d : Option ℚ)
    (h : jsTrim text ≠ []) (hn : 0 < (visemeScan text).length) :
    textToVisemes text d =
      padEnd (padStart (assignWeights
        (d.getD ((text.length : ℚ) * (2/25)) / (visemeScan text).length)
        VisemeName.sil (visemeScan text))) := by
  unfold textToVisemes
  rw [if_neg h]
  dsimp only
  rw [if_pos hn]

/-- C2 (amended): for every text containing at least one non-whitespace
    character, `textToVisemes` returns a non-empty sequence whose first
    and last events are the silence category, and the sum of the event
    durations equals the supplied durationHint (or `text.length * 0.08`
    when no hint is given) plus the duration of the silence events added
    at the boundaries — between 0 and 0.15 seconds on top of the hint. -/
theorem textToVisemes_shape (text : List Char) (d : Option ℚ)
    (h : jsTrim text ≠ []) :
    textToVisemes text d ≠ [] ∧
    (textToVisemes text d).head?.map VisemeData.name = some VisemeName.sil ∧
    (textToVisemes text d).getLast?.map VisemeData.name = some VisemeName.sil ∧
    d.getD ((text.length : ℚ) * (2/25)) ≤ sumDur (textToVisemes text d) ∧
    sumDur (textToVisemes text d) ≤ d.getD ((text.length : ℚ) * (2/25)) + 3/20 := by
  have htext : text ≠ [] := by
    intro he; exact h (by simp [he, jsTrim])
  have hchars : visemeScan text ≠ [] := visemeScan_ne_nil text htext
  have hn : 0 < (visemeScan text).length := List.length_pos.mpr hchars
  have heq := textToVisemes_eq text d h hn
  have hcorene : assignWeights
      (d.getD ((text.length : ℚ) * (2/25)) / (visemeScan text).length)
      VisemeName.sil (visemeScan text) ≠ [] :=
    assignWeights_ne_nil _ _ _ hchars
  have hsum_core : sumDur (assignWeights
      (d.getD ((text.length : ℚ) * (2/25)) / (visemeScan text).length)
      VisemeName.sil (visemeScan text)) = d.getD ((text.length : ℚ) * (2/25)) := by
    rw [sumDur_assignWeights]
    exact div_mul_cancel₀ _ (by exact_mod_cast hn.ne')
  obtain ⟨e1, he1, he1a, he1b⟩ := padStart_sum (assignWeights
      (d.getD ((text.length : ℚ) * (2/25)) / (visemeScan text).length)
      VisemeName.sil (visemeScan text))
  obtain ⟨e2, he2, he2a, he2b⟩ := padEnd_sum (padStart (assignWeights
      (d.getD ((text.length : ℚ) * (2/25)) / (visemeScan text).length)
      VisemeName.sil (visemeScan text)))
  have hpne := padStart_ne_nil _ hcorene
  refine ⟨?_, ?_, ?_, ?_, ?_⟩
  · rw [heq]; exact padEnd_ne_nil _ hpne
  · rw [heq, padEnd_head _ hpne]; exact padStart_head _ hcorene
  · rw [heq]; exact padEnd_getLast _ hpne
  · rw [heq, he2, he1, hsum_core]; linarith
  · rw [heq, he2, he1, hsum_core]; linarith

/-- C2 counterexample: the claim fails as stated.  For the empty text the
    result is the empty sequence (no silence events at all), and for text
    "a" with durationHint 1 the durations sum to 23/20: the prepended
    (0.05) and appended (0.1) silence events are added on top of the
    hint, a fixed additive excess, not a rounding error. -/
theorem textToVisemes_claim_false :
    textToVisemes [] (some 1) = [] ∧
    sumDur (textToVisemes "a".toList (some 1)) = 23/20 := by
  constructor
  · decide
  · have h1 : visemeScan "a".toList = [VisemeName.aa] := by decide
    have h2 : textToVisemes "a".toList (some 1) =
        [⟨.sil, 0, 1/20⟩, ⟨.aa, 1, 1⟩, ⟨.sil, 0, 1/10⟩] := by
      rw [textToVisemes_eq "a".toList (some 1) (by decide) (by decide), h1]
      norm_num [assignWeights, baseWeight, padStart, padEnd]
      simp
    rw [h2]
    norm_num [sumDur]

/-- Witness for the amended C2 at text "a" with durationHint 1. -/
theorem textToVisemes_shape_witness :
    jsTrim "a".toList ≠ [] ∧
    (textToVisemes "a".toList (some 1) ≠ [] ∧
     (textToVisemes "a".toList (some 1)).head?.map VisemeData.name =
       some VisemeName.sil ∧
     (textToVisemes "a".toList (some 1)).getLast?.map VisemeData.name =
       some VisemeName.sil ∧
     (some (1 : ℚ)).getD (("a".toList.length : ℚ) * (2/25)) ≤
       sumDur (textToVisemes "a".toList (some 1)) ∧
     sumDur (textToVisemes "a".toList (some 1)) ≤
       (some (1 : ℚ)).getD (("a".toList.length : ℚ) * (2/25)) + 3/20) :=
  ⟨by decide, textToVisemes_shape "a".toList (some 1) (by decide)⟩

/-- C9: for every input text that is empty or consists only of
    whitespace, `textToVisemes` returns the empty sequence, for every
    value of the optional duration argument. -/
theorem textToVisemes_whitespace_empty (text : List Char) (d : Option ℚ)
    (h : ∀ c ∈ text, jsWhitespace c = true) :
    textToVisemes text d = [] := by
  have h1 : text.dropWhile jsWhitespace = [] := List.dropWhile_eq_nil_iff.mpr h
  have h2 : jsTrim text = [] := by simp [jsTrim, h1]
  unfold textToVisemes
  rw [if_pos h2]

/-- Witness for C9 at the one-space text with no duration hint. -/
theorem textToVisemes_whitespace_empty_witness :
    (∀ c ∈ " ".toList, jsWhitespace c = true) ∧
      textToVisemes " ".toList none = [] :=
  ⟨by decide, textToVisemes_whitespace_empty " ".toList none (by decide)⟩

/-! ## The synthesis cache

The `TTSCache` class.  A JavaScript `Map` is an insertion-ordered
association list with unique keys: `Map.prototype.set` on a present key
updates the value in place (keeping the key
s position), otherwise it
appends; `keys().next().value` is the first (oldest-inserted) key. -/

structure CacheEntry (α : Type) where
  audioBuffer : α
  visemes : List VisemeData
  timestamp : ℕ
deriving DecidableEq

def mapGet {β : Type} (m : List (String × β)) (k : String) : Option β :=
  (m.find? (fun p => p.1 = k)).map Prod.snd

def mapSet {β : Type} (m : List (String × β)) (k : String) (v : β) :
    List (String × β) :=
  if m.any (fun p => p.1 = k) then
    m.map (fun p => if p.1 = k then (k, v) else p)
  else m ++ [(k, v)]

def mapDelete {β : Type} (m : List (String × β)) (k : String) :
    List (String × β) :=
  m.filter (fun p => p.1 ≠ k)

def firstKey {β : Type} (m : List (String × β)) : Option String :=
  m.head?.map Prod.fst

structure TTSCache (α : Type) where
  cache : List (String × CacheEntry α)
  maxSize : ℕ
  ttlMs : ℕ
deriving DecidableEq

/-- `makeKey(text, voice)`. -/
def TTSCache.makeKey (text voice : String) : String := voice ++ ":" ++ text

/-- `TTSCache.get(text, voice)`, with `Date.now()` passed as `now`.
    Returns the looked-up entry together with the updated cache (the
    method mutates the map when it expires an entry). -/
def TTSCache.get {α} (c : TTSCache α) (now : ℕ) (text voice : String) :
    Option (CacheEntry α) × TTSCache α :=
  match mapGet c.cache (TTSCache.makeKey text voice) with
  | none => (none, c)
  | some e =>
    if c.ttlMs < now - e.timestamp then
      (none, { c with cache := mapDelete c.cache (TTSCache.makeKey text voice) })
    else (some e, c)

/-- `TTSCache.set(text, voice, audioBuffer, visemes)`, with `Date.now()`
    passed as `now`.  `if (oldest)` in the source is falsy for the empty
    string, hence the `k = ""` test. -/
def TTSCache.set {α} (c : TTSCache α) (now : ℕ) (text voice : String)
    (audioBuffer : α) (visemes : List VisemeData) : TTSCache α :=
  let entry : CacheEntry α := ⟨audioBuffer, visemes, now⟩
  let c1 := if c.maxSize ≤ c.cache.length then
      match firstKey c.cache with
      | some k => if k = "" then c.cache else mapDelete c.cache k
      | none => c.cache
    else c.cache
  { c with cache := mapSet c1 (TTSCache.makeKey text voice) entry }

/-- Inserting a list of `(text, voice, audio)` requests in order. -/
def insertAll {α} (c : TTSCache α) (now : ℕ)
    (inputs : List (String × String × α)) : TTSCache α :=
  inputs.foldl (fun acc i => TTSCache.set acc now i.1 i.2.1 i.2.2 []) c

def inputKey {α} (i : String × String × α) : String :=
  TTSCache.makeKey i.1 i.2.1

theorem makeKey_ne_empty (text voice : String) :
    TTSCache.makeKey text voice ≠ "" := by
  unfold TTSCache.makeKey
  intro h
  have h2 := congrArg String.length h
  rw [String.length_append, String.length_append] at h2
  have h3 : (":" : String).length = 1 := rfl
  have h4 : ("" : String).length = 0 := rfl
  omega

theorem inputKey_ne_empty {α : Type} (i : String × String × α) :
    inputKey i ≠ "" := makeKey_ne_empty i.1 i.2.1

theorem mapGet_mapDelete_self {β : Type} (m : List (String × β)) (k : String) :
    mapGet (mapDelete m k) k = none := by
  induction m with
  | nil => rfl
  | cons p rest ih =>
    by_cases h : p.1 = k
    · simpa [mapDelete, List.filter_cons, h] using ih
    · simpa [mapDelete, mapGet, List.filter_cons, List.find?_cons, h] using ih

theorem mapGet_cons_eq {β : Type} (p : String × β) (rest : List (String × β))
    (k : String) (h : p.1 = k) : mapGet (p :: rest) k = some p.2 := by
  rw [mapGet, List.find?_cons_of_pos _ (by simpa using h)]
  rfl

theorem mapGet_cons_ne {β : Type} (p : String × β) (rest : List (String × β))
    (k : String) (h : ¬ p.1 = k) : mapGet (p :: rest) k = mapGet rest k := by
  rw [mapGet, List.find?_cons_of_neg _ (by simpa using h)]
  rfl

theorem mapGet_mapDelete_ne {β : Type} (m : List (String × β)) (k k2 : String)
    (h : k2 ≠ k) : mapGet (mapDelete m k) k2 = mapGet m k2 := by
  induction m with
  | nil => rfl
  | cons p rest ih =>
    by_cases h1 : p.1 = k
    · have h2 : ¬ p.1 = k2 := fun he => h (he.symm.trans h1)
      have hfilter : mapDelete (p :: rest) k = mapDelete rest k := by
        simp [mapDelete, List.filter_cons, h1]
      rw [hfilter, ih, mapGet_cons_ne _ _ _ h2]
    · have hfilter : mapDelete (p :: rest) k = p :: mapDelete rest k := by
        simp [mapDelete, List.filter_cons, h1]
      by_cases h2 : p.1 = k2
      · rw [hfilter, mapGet_cons_eq _ _ _ h2, mapGet_cons_eq _ _ _ h2]
      · rw [hfilter, mapGet_cons_ne _ _ _ h2, mapGet_cons_ne _ _ _ h2]
        exact ih

theorem mapSet_absent {β : Type} (m : List (String × β)) (k : String) (v : β)
    (h : ∀ p ∈ m, p.1 ≠ k) : mapSet m k v = m ++ [(k, v)] := by
  rw [mapSet, if_neg]
  intro hany
  obtain ⟨p, hp, hpk⟩ := List.any_eq_true.mp hany
  exact h p hp (by simpa using hpk)

theorem map_update_keys {β : Type} (k : String) (v : β)
    (m : List (String × β)) :
    (m.map (fun p => if p.1 = k then (k, v) else p)).map Prod.fst =
      m.map Prod.fst := by
  induction m with
  | nil => rfl
  | cons p rest ih =>
    by_cases h2 : p.1 = k
    · simp only [List.map_cons, if_pos h2, ih]
      simp [h2]
    · simp only [List.map_cons, if_neg h2, ih]

theorem mapSet_present_keys {β : Type} (m : List (String × β)) (k : String)
    (v : β) (h : m.any (fun p => p.1 = k) = true) :
    (mapSet m k v).map Prod.fst = m.map Prod.fst := by
  rw [mapSet, if_pos h]
  exact map_update_keys k v m

theorem mapGet_map_update {β : Type} (k : String) (v : β) :
    ∀ m : List (String × β), m.any (fun p => p.1 = k) = true →
      mapGet (m.map (fun p => if p.1 = k then (k, v) else p)) k = some v := by
  intro m
  induction m with
  | nil => intro h; cases h
  | cons p rest ih =>
    intro h
    by_cases h2 : p.1 = k
    · simp only [List.map_cons, if_pos h2]
      exact mapGet_cons_eq (k, v) _ k rfl
    · simp only [List.map_cons, if_neg h2]
      rw [mapGet_cons_ne _ _ _ h2]
      exact ih (by simpa [List.any_cons, h2] using h)

theorem mapGet_mapSet_self {β : Type} (m : List (String × β)) (k : String)
    (v : β) (h : m.any (fun p => p.1 = k) = true) :
    mapGet (mapSet m k v) k = some v := by
  rw [mapSet, if_pos h]
  exact mapGet_map_update k v m h

theorem mapDelete_keys {β : Type} (m : List (String × β)) (k : String) :
    (mapDelete m k).map Prod.fst = (m.map Prod.fst).filter (fun s => s ≠ k) := by
  induction m with
  | nil => rfl
  | cons p rest ih =>
    by_cases h : p.1 = k <;>
      simp [mapDelete, List.filter_cons, h] at ih ⊢ <;>
      simpa [mapDelete] using ih

theorem TTSCache.set_maxSize {α : Type} (c : TTSCache α) (now : ℕ)
    (text voice : String) (a : α) (vis : List VisemeData) :
    (TTSCache.set c now text voice a vis).maxSize = c.maxSize := rfl

theorem insertAll_under_capacity {α : Type} (now : ℕ) :
    ∀ (inputs : List (String × String × α)) (c : TTSCache α),
      c.cache.length + inputs.length ≤ c.maxSize →
      (∀ i ∈ inputs, ∀ p ∈ c.cache, p.1 ≠ inputKey i) →
      (inputs.map inputKey).Nodup →
      (insertAll c now inputs).cache =
        c.cache ++ inputs.map
          (fun i => (inputKey i, (⟨i.2.2, [], now⟩ : CacheEntry α))) ∧
      (insertAll c now inputs).maxSize = c.maxSize := by
  intro inputs
  induction inputs with
  | nil => intro c h1 h2 h3; simp [insertAll]
  | cons i rest ih =>
    intro c h1 h2 h3
    simp only [List.length_cons] at h1
    have hlen : c.cache.length < c.maxSize := by omega
    have hset : (TTSCache.set c now i.1 i.2.1 i.2.2 []).cache
        = c.cache ++ [(inputKey i, ⟨i.2.2, [], now⟩)] := by
      unfold TTSCache.set
      dsimp only
      rw [if_neg (by omega)]
      exact mapSet_absent _ _ _ (fun p hp => h2 i (by simp) p hp)
    have hstep : insertAll c now (i :: rest)
        = insertAll (TTSCache.set c now i.1 i.2.1 i.2.2 []) now rest := rfl
    rw [hstep]
    have hmax := TTSCache.set_maxSize c now i.1 i.2.1 i.2.2 []
    have h3r : (rest.map inputKey).Nodup := by
      simp only [List.map_cons, List.nodup_cons] at h3
      exact h3.2
    have hnotin : inputKey i ∉ rest.map inputKey := by
      simp only [List.map_cons, List.nodup_cons] at h3
      exact h3.1
    obtain ⟨hc, hm⟩ := ih (TTSCache.set c now i.1 i.2.1 i.2.2 [])
      (by rw [hset, hmax]; simp; omega)
      (by
        intro j hj p hp
        rw [hset] at hp
        rcases List.mem_append.mp hp with hp1 | hp1
        · exact h2 j (List.mem_cons_of_mem _ hj) p hp1
        · have hpe : p = (inputKey i, (⟨i.2.2, [], now⟩ : CacheEntry α)) := by
            simpa using hp1
          rw [hpe]
          intro he
          have he2 : inputKey i = inputKey j := he
          apply hnotin
          rw [he2]
          exact List.mem_map_of_mem inputKey hj
      )
      h3r
    refine ⟨?_, by rw [hm, hmax]⟩
    rw [hc, hset]
    simp [List.append_assoc]

/-- C3: into an empty cache of capacity N ≥ 1, inserting N+1 entries with
    pairwise-distinct keys evicts exactly the single oldest-inserted entry
    and no other: the surviving keys are exactly the last N inserted keys,
    still in insertion order.  And a `get` on an entry whose age exceeds
    the TTL returns absent, removes exactly that entry from the cache, and
    leaves every other entry in place and in order. -/
theorem TTSCache_eviction_and_ttl {α : Type} :
    (∀ (N t now : ℕ) (inputs : List (String × String × α)),
       1 ≤ N → inputs.length = N + 1 → (inputs.map inputKey).Nodup →
       (insertAll ⟨[], N, t⟩ now inputs).cache.map Prod.fst =
         (inputs.map inputKey).tail) ∧
    (∀ (c : TTSCache α) (text voice : String) (now : ℕ) (e : CacheEntry α),
       mapGet c.cache (TTSCache.makeKey text voice) = some e →
       c.ttlMs < now - e.timestamp →
       (TTSCache.get c now text voice).1 = none ∧
       mapGet (TTSCache.get c now text voice).2.cache
         (TTSCache.makeKey text voice) = none ∧
       (TTSCache.get c now text voice).2.cache.map Prod.fst =
         (c.cache.map Prod.fst).filter
           (fun s => s ≠ TTSCache.makeKey text voice)) := by
  constructor
  · intro N t now inputs hN hlen hnodup
    have hne : inputs ≠ [] := by
      intro he; rw [he] at hlen; simp at hlen
    obtain ⟨ys, z, hyz⟩ : ∃ ys z, inputs = ys ++ [z] :=
      ⟨inputs.dropLast, inputs.getLast hne,
        (List.dropLast_append_getLast hne).symm⟩
    subst hyz
    have hyslen : ys.length = N := by
      simp only [List.length_append, List.length_singleton] at hlen
      omega
    have hysne : ys ≠ [] := by
      intro he; rw [he] at hyslen; simp at hyslen; omega
    rw [List.map_append, List.nodup_append] at hnodup
    obtain ⟨hynodup, _, hdisj⟩ := hnodup
    have hznotin : inputKey z ∉ ys.map inputKey := by
      intro hmem
      exact hdisj hmem (by simp)
    obtain ⟨hcache, hmax⟩ := insertAll_under_capacity now ys ⟨[], N, t⟩
      (by simp [hyslen]) (by simp) hynodup
    have hfold : insertAll (⟨[], N, t⟩ : TTSCache α) now (ys ++ [z]) =
        TTSCache.set (insertAll ⟨[], N, t⟩ now ys) now z.1 z.2.1 z.2.2 [] := by
      unfold insertAll
      rw [List.foldl_append]
      rfl
    rw [hfold]
    obtain ⟨y0, ys2, hys⟩ := List.exists_cons_of_ne_nil hysne
    subst hys
    simp only [List.nil_append] at hcache
    have hy0notin : inputKey y0 ∉ ys2.map inputKey := by
      simp only [List.map_cons, List.nodup_cons] at hynodup
      exact hynodup.1
    -- the final insert happens at capacity and evicts the first key
    unfold TTSCache.set
    dsimp only
    rw [hmax, hcache]
    have hcap : N ≤ (((y0 :: ys2).map
        (fun i => (inputKey i, (⟨i.2.2, [], now⟩ : CacheEntry α)))).length) := by
      simp only [List.length_map, List.length_cons] at hyslen ⊢
      omega
    rw [if_pos hcap]
    simp only [List.map_cons, firstKey, List.head?_cons, Option.map_some']
    rw [if_neg (inputKey_ne_empty y0)]
    have hdel : mapDelete
        ((inputKey y0, (⟨y0.2.2, [], now⟩ : CacheEntry α)) ::
          ys2.map (fun i => (inputKey i, (⟨i.2.2, [], now⟩ : CacheEntry α))))
        (inputKey y0) =
        ys2.map (fun i => (inputKey i, (⟨i.2.2, [], now⟩ : CacheEntry α))) := by
      rw [mapDelete, List.filter_cons, if_neg (by simp)]
      rw [List.filter_eq_self]
      intro p hp
      obtain ⟨j, hj, hpe⟩ := List.mem_map.mp hp
      rw [← hpe]
      simp only [ne_eq, decide_eq_true_eq]
      intro he
      exact hy0notin (he ▸ List.mem_map_of_mem inputKey hj)
    rw [hdel]
    rw [mapSet_absent _ _ _ (by
      intro p hp
      obtain ⟨j, hj, hpe⟩ := List.mem_map.mp hp
      rw [← hpe]
      intro he
      have he2 : inputKey j = inputKey z := he
      apply hznotin
      rw [← he2]
      exact List.mem_map_of_mem inputKey (List.mem_cons_of_mem _ hj))]
    simp [inputKey]
  · intro c text voice now e hget hexp
    unfold TTSCache.get
    rw [hget]
    dsimp only
    rw [if_pos hexp]
    refine ⟨rfl, mapGet_mapDelete_self _ _, mapDelete_keys _ _⟩

/-- Witness for C3: capacity 2, three distinct keys: the first is evicted
    and the last two remain in order; and an expired entry is dropped on
    `get`. -/
theorem TTSCache_eviction_and_ttl_witness :
    ((insertAll (⟨[], 2, 300000⟩ : TTSCache ℕ) 0
        [("a", "v", 1), ("b", "v", 2), ("c", "v", 3)]).cache.map Prod.fst =
      (([("a", "v", 1), ("b", "v", 2), ("c", "v", 3)] :
          List (String × String × ℕ)).map inputKey).tail) ∧
    ((TTSCache.get (⟨[("v:a", ⟨5, [], 0⟩)], 2, 10⟩ : TTSCache ℕ) 100 "a" "v").1
        = none ∧
     mapGet (TTSCache.get (⟨[("v:a", ⟨5, [], 0⟩)], 2, 10⟩ : TTSCache ℕ)
        100 "a" "v").2.cache (TTSCache.makeKey "a" "v") = none ∧
     (TTSCache.get (⟨[("v:a", ⟨5, [], 0⟩)], 2, 10⟩ : TTSCache ℕ)
        100 "a" "v").2.cache.map Prod.fst =
       ((⟨[("v:a", ⟨5, [], 0⟩)], 2, 10⟩ : TTSCache ℕ).cache.map Prod.fst).filter
         (fun s => s ≠ TTSCache.makeKey "a" "v")) :=
  ⟨TTSCache_eviction_and_ttl.1 2 300000 0
      [("a", "v", 1), ("b", "v", 2), ("c", "v", 3)]
      (by norm_num) (by decide) (by decide),
   TTSCache_eviction_and_ttl.2 ⟨[("v:a", ⟨5, [], 0⟩)], 2, 10⟩ "a" "v" 100
      ⟨5, [], 0⟩ (by decide) (by decide)⟩

/-- C10 counterexample: a capacity-2 cache holds keys "v:a" (oldest) then
    "v:b".  `set` on the already-present key ("a","v") at capacity evicts
    the oldest entry — which is that same key — and then re-appends it,
    so the key moves from the front to the back of the eviction order
    (["v:a", "v:b"] becomes ["v:b", "v:a"]) instead of keeping its
    original insertion position. -/
theorem TTSCache_overwrite_moves :
    (TTSCache.set (TTSCache.set (TTSCache.set (⟨[], 2, 300000⟩ : TTSCache ℕ)
          0 "a" "v" 1 []) 0 "b" "v" 2 []) 5 "a" "v" 3 []).cache.map Prod.fst ≠
      (TTSCache.set (TTSCache.set (⟨[], 2, 300000⟩ : TTSCache ℕ)
          0 "a" "v" 1 []) 0 "b" "v" 2 []).cache.map Prod.fst := by
  decide

/-- C10 (amended): when `set` overwrites an already-present key while the
    cache is at capacity, the current oldest entry is still evicted even
    though the insert does not grow the cache; and provided the
    overwritten key is not itself the oldest, it keeps its relative
    position — the surviving keys are exactly the old keys minus the
    evicted head, in order — and only its stored value and timestamp are
    refreshed.  (If the overwritten key is the oldest it is evicted and
    re-appended at the newest position, per the counterexample.) -/
theorem TTSCache_overwrite_not_oldest {α : Type} (c : TTSCache α)
    (now : ℕ) (text voice : String) (audio : α) (vis : List VisemeData)
    (hcap : c.maxSize ≤ c.cache.length)
    (hnodup : (c.cache.map Prod.fst).Nodup)
    (hkeys : ∀ p ∈ c.cache, p.1 ≠ "")
    (hpresent : c.cache.any (fun p => p.1 = TTSCache.makeKey text voice) = true)
    (hne : firstKey c.cache ≠ some (TTSCache.makeKey text voice)) :
    (TTSCache.set c now text voice audio vis).cache.map Prod.fst =
      (c.cache.map Prod.fst).tail ∧
    mapGet (TTSCache.set c now text voice audio vis).cache
      (TTSCache.makeKey text voice) = some ⟨audio, vis, now⟩ := by
  obtain ⟨p0, rest, hc⟩ : ∃ p0 rest, c.cache = p0 :: rest := by
    cases hcc : c.cache with
    | nil => rw [hcc] at hpresent; cases hpresent
    | cons a b => exact ⟨a, b, rfl⟩
  have hp0key : p0.1 ≠ TTSCache.makeKey text voice := by
    intro he
    apply hne
    rw [hc, firstKey, List.head?_cons, Option.map_some']
    rw [he]
  have hrest : rest.any (fun p => p.1 = TTSCache.makeKey text voice) = true := by
    rw [hc, List.any_cons] at hpresent
    rcases Bool.or_eq_true_iff.mp hpresent with h1 | h1
    · exact absurd (of_decide_eq_true h1) hp0key
    · exact h1
  have hp0notin : ∀ p ∈ rest, p.1 ≠ p0.1 := by
    intro p hp he
    rw [hc, List.map_cons, List.nodup_cons] at hnodup
    exact hnodup.1 (he ▸ List.mem_map_of_mem Prod.fst hp)
  have hdel : mapDelete (p0 :: rest) p0.1 = rest := by
    rw [mapDelete, List.filter_cons, if_neg (by simp)]
    rw [List.filter_eq_self]
    intro p hp
    simpa using hp0notin p hp
  unfold TTSCache.set
  dsimp only
  rw [if_pos hcap, hc]
  simp only [firstKey, List.head?_cons, Option.map_some']
  rw [if_neg (hkeys p0 (by rw [hc]; simp))]
  rw [hdel]
  constructor
  · rw [mapSet_present_keys _ _ _ hrest]
    simp
  · exact mapGet_mapSet_self _ _ _ hrest

/-- Witness for the amended C10: capacity-2 cache with keys "v:x", "v:y";
    overwriting the newer key "v:y" at capacity evicts the oldest "v:x"
    and leaves "v:y" in place with the refreshed entry. -/
theorem TTSCache_overwrite_not_oldest_witness :
    ((([("v:x", ⟨1, [], 0⟩), ("v:y", ⟨2, [], 0⟩)] :
        List (String × CacheEntry ℕ)).map Prod.fst).Nodup) ∧
    ((TTSCache.set (⟨[("v:x", ⟨1, [], 0⟩), ("v:y", ⟨2, [], 0⟩)], 2, 300000⟩ :
        TTSCache ℕ) 5 "y" "v" 7 []).cache.map Prod.fst =
      ((⟨[("v:x", ⟨1, [], 0⟩), ("v:y", ⟨2, [], 0⟩)], 2, 300000⟩ :
        TTSCache ℕ).cache.map Prod.fst).tail ∧
     mapGet (TTSCache.set
        (⟨[("v:x", ⟨1, [], 0⟩), ("v:y", ⟨2, [], 0⟩)], 2, 300000⟩ :
        TTSCache ℕ) 5 "y" "v" 7 []).cache (TTSCache.makeKey "y" "v") =
       some ⟨7, [], 5⟩) :=
  ⟨by decide,
   TTSCache_overwrite_not_oldest
     (⟨[("v:x", ⟨1, [], 0⟩), ("v:y", ⟨2, [], 0⟩)], 2, 300000⟩ : TTSCache ℕ)
     5 "y" "v" 7 [] (by decide) (by decide) (by decide) (by decide) (by decide)⟩

/-! ## LocalTTSService: pending requests, timeout, message handling, stop

The `pendingTTS` map stores, per request id, the text of the request (the
resolve/reject callbacks are represented by the returned outcome). -/

/-- `TTSResult` of LocalTTSService.ts; the audio payload is abstract. -/
structure TTSResultM (α : Type) where
  audioBuffer : α
  visemes : List VisemeData
  duration : ℚ
deriving DecidableEq

inductive TTSOutcome (α : Type)
  | resolved (r : TTSResultM α)
  | rejected (msg : String)
deriving DecidableEq

/-- Inbound WebSocket traffic seen by `handleMessage`. -/
inductive WireMsg (α : Type)
  | binary (data : α)
  | ttsResult (id : String) (byteLength : ℕ)
  | ttsError (id : String) (err : String)
deriving DecidableEq

/-- The mutable fields of a LocalTTSService instance. -/
structure LocalTTSState (α : Type) where
  pendingTTS : List (String × String)
  pendingMeta : Option (String × ℕ)
  cache : TTSCache α
  voice : String
  currentAudioSource : Option ℕ
  chunkBuffer : List Char
  chunkBufferTimeout : Option ℕ
  audioSegmentQueue : List (List Char)
  isPlayingQueue : Bool
  isSpeaking : Bool
deriving DecidableEq

/-- The `30_000` ms literal of the per-request timer in `synthesize`. -/
def ttsRequestTimeoutMs : ℕ := 30000

/-- `tts.durationMultiplier` (0.15) of the configuration. -/
def durationMultiplier : ℚ := 3/20

/-- The timer body armed by `synthesize`: if the request is still
    pending, it is removed and its promise rejected with the timeout
    error; otherwise nothing happens. -/
def fireTimeout {α : Type} (s : LocalTTSState α) (id : String) :
    LocalTTSState α × Option (String × TTSOutcome α) :=
  match mapGet s.pendingTTS id with
  | none => (s, none)
  | some _ =>
    ({ s with pendingTTS := mapDelete s.pendingTTS id },
     some (id, .rejected "TTS request timed out"))

/-- `handleMessage`: a binary frame is the payload for the most recently
    announced meta (resolving, caching and removing the pending request
    if one matches, and always consuming the meta); a `tts:result`
    envelope records the meta; a `tts:error` envelope rejects and removes
    a matching pending request. -/
def handleMessage {α : Type} (s : LocalTTSState α) (now : ℕ) :
    WireMsg α → LocalTTSState α × Option (String × TTSOutcome α)
  | .binary data =>
    match s.pendingMeta with
    | none => (s, none)
    | some (mid, _) =>
      match mapGet s.pendingTTS mid with
      | none => ({ s with pendingMeta := none }, none)
      | some text =>
        let visemes := textToVisemes text.toList none
        let duration := (text.length : ℚ) * durationMultiplier
        ({ s with
            cache := TTSCache.set s.cache now text s.voice data visemes,
            pendingTTS := mapDelete s.pendingTTS mid,
            pendingMeta := none },
         some (mid, .resolved ⟨data, visemes, duration⟩))
  | .ttsResult id len => ({ s with pendingMeta := some (id, len) }, none)
  | .ttsError id err =>
    match mapGet s.pendingTTS id with
    | none => (s, none)
    | some _ =>
      ({ s with pendingTTS := mapDelete s.pendingTTS id },
       some (id, .rejected err))

/-- C4: the per-request timer lasts 30000 ms; firing it while the request
    is pending rejects the promise with the timeout error and removes the
    PendingRequest; and a response bearing an id that is not pending
    resolves or rejects nothing: an error envelope is a no-op, and a
    result-meta envelope followed by its binary frame only consumes the
    meta, leaving the pending map and the cache unchanged. -/
theorem synthesize_timeout_spec {α : Type} :
    ttsRequestTimeoutMs = 30000 ∧
    (∀ (s : LocalTTSState α) (id text : String),
       mapGet s.pendingTTS id = some text →
       fireTimeout s id =
         ({ s with pendingTTS := mapDelete s.pendingTTS id },
          some (id, .rejected "TTS request timed out")) ∧
       mapGet (fireTimeout s id).1.pendingTTS id = none) ∧
    (∀ (s : LocalTTSState α) (now : ℕ) (id err : String) (len : ℕ) (data : α),
       mapGet s.pendingTTS id = none →
       handleMessage s now (.ttsError id err) = (s, none) ∧
       (handleMessage s now (.ttsResult id len)).2 = none ∧
       (handleMessage (handleMessage s now (.ttsResult id len)).1 now
          (.binary data)).2 = none ∧
       (handleMessage (handleMessage s now (.ttsResult id len)).1 now
          (.binary data)).1 = { s with pendingMeta := none }) := by
  refine ⟨rfl, ?_, ?_⟩
  · intro s id text h
    have he : fireTimeout s id =
        ({ s with pendingTTS := mapDelete s.pendingTTS id },
         some (id, .rejected "TTS request timed out")) := by
      unfold fireTimeout
      rw [h]
    refine ⟨he, ?_⟩
    rw [he]
    exact mapGet_mapDelete_self _ _
  · intro s now id err len data h
    have herr : handleMessage s now (.ttsError id err) = (s, none) := by
      simp only [handleMessage]
      rw [h]
    have hmeta : handleMessage s now (.ttsResult id len) =
        ({ s with pendingMeta := some (id, len) }, none) := rfl
    have hbin : handleMessage
        ({ s with pendingMeta := some (id, len) } : LocalTTSState α) now
        (.binary data) = ({ s with pendingMeta := none }, none) := by
      simp only [handleMessage]
      rw [h]
    exact ⟨herr, by rw [hmeta], by rw [hmeta, hbin], by rw [hmeta, hbin]⟩

/-- Witness for C4 at a one-request pending map over ℕ audio payloads. -/
theorem synthesize_timeout_spec_witness :
    (mapGet ([("id1", "hi")] : List (String × String)) "id1" = some "hi" ∧
     fireTimeout
        (⟨[("id1", "hi")], none, ⟨[], 50, 300000⟩, "v", none, [], none, [],
          false, false⟩ : LocalTTSState ℕ) "id1" =
       (⟨[], none, ⟨[], 50, 300000⟩, "v", none, [], none, [], false, false⟩,
        some ("id1", .rejected "TTS request timed out"))) ∧
    (handleMessage
        (⟨[], none, ⟨[], 50, 300000⟩, "v", none, [], none, [], false, false⟩ :
          LocalTTSState ℕ) 0 (.ttsError "id1" "boom") =
      (⟨[], none, ⟨[], 50, 300000⟩, "v", none, [], none, [], false, false⟩,
       none)) := by
  constructor
  · constructor
    · decide
    · have h := (synthesize_timeout_spec (α := ℕ)).2.1
        (⟨[("id1", "hi")], none, ⟨[], 50, 300000⟩, "v", none, [], none, [],
          false, false⟩ : LocalTTSState ℕ) "id1" "hi" (by decide)
      rw [h.1]
      decide
  · exact ((synthesize_timeout_spec (α := ℕ)).2.2
      (⟨[], none, ⟨[], 50, 300000⟩, "v", none, [], none, [], false, false⟩ :
        LocalTTSState ℕ) 0 "id1" "boom" 0 0 (by decide)).1

/-! ## ensureWebSocket: a single in-flight connection attempt -/

/-- `WebSocket.readyState` (OPEN is the only value the code tests). -/
inductive WsReadyState
  | connecting | opened | closing | closed
deriving DecidableEq

/-- The per-connection fields `this.ws` / `this.wsConnecting`, shared by
    LocalTTSService and LocalSTTService.  A pending connect promise is
    identified by a numeric token so that sharing is expressible. -/
structure ChannelState where
  ws : Option WsReadyState
  wsConnecting : Option ℕ
deriving DecidableEq

/-- What `ensureWebSocket()` hands back to its caller. -/
inductive ConnectResult
  | alreadyOpen
  | existing (tok : ℕ)
  | fresh (tok : ℕ)
deriving DecidableEq

/-- `ensureWebSocket()`: resolved immediately when the socket is open;
    the shared in-flight promise while one attempt is pending; otherwise
    a new attempt (recorded in `wsConnecting`). -/
def ensureWebSocket (s : ChannelState) (freshTok : ℕ) :
    ChannelState × ConnectResult :=
  if s.ws = some .opened then (s, .alreadyOpen)
  else
    match s.wsConnecting with
    | some t => (s, .existing t)
    | none => ({ s with wsConnecting := some freshTok }, .fresh freshTok)

/-- C5: while an attempt is in flight every caller is handed that same
    pending attempt and the state is untouched (no second socket); when
    the channel is already open the call returns immediately with no side
    effect; and a fresh attempt can only start when no attempt is in
    flight — so at most one connection attempt is ever in flight. -/
theorem ensureWebSocket_single_flight :
    (∀ (s : ChannelState) (tok t : ℕ),
       s.ws ≠ some .opened → s.wsConnecting = some t →
       ensureWebSocket s tok = (s, .existing t)) ∧
    (∀ (s : ChannelState) (tok : ℕ),
       s.ws = some .opened → ensureWebSocket s tok = (s, .alreadyOpen)) ∧
    (∀ (s : ChannelState) (tok r : ℕ),
       (ensureWebSocket s tok).2 = .fresh r →
       s.wsConnecting = none ∧ s.ws ≠ some .opened ∧ r = tok) := by
  refine ⟨?_, ?_, ?_⟩
  · intro s tok t hws hconn
    unfold ensureWebSocket
    rw [if_neg hws, hconn]
  · intro s tok hws
    unfold ensureWebSocket
    rw [if_pos hws]
  · intro s tok r h
    unfold ensureWebSocket at h
    by_cases hws : s.ws = some .opened
    · rw [if_pos hws] at h; cases h
    · rw [if_neg hws] at h
      cases hconn : s.wsConnecting with
      | some t => rw [hconn] at h; cases h
      | none =>
        rw [hconn] at h
        cases h
        exact ⟨rfl, hws, rfl⟩

/-- Witness for C5: a connecting channel shares attempt 7; an open
    channel returns immediately; a closed idle channel starts attempt 3
    only because none was in flight. -/
theorem ensureWebSocket_single_flight_witness :
    (ensureWebSocket ⟨none, some 7⟩ 9 = (⟨none, some 7⟩, .existing 7)) ∧
    (ensureWebSocket ⟨some .opened, none⟩ 9 =
      (⟨some .opened, none⟩, .alreadyOpen)) ∧
    ((⟨none, none⟩ : ChannelState).wsConnecting = none ∧
      (⟨none, none⟩ : ChannelState).ws ≠ some .opened ∧ (3 : ℕ) = 3) :=
  ⟨ensureWebSocket_single_flight.1 ⟨none, some 7⟩ 9 7 (by decide) rfl,
   ensureWebSocket_single_flight.2.1 ⟨some .opened, none⟩ 9 rfl,
   ensureWebSocket_single_flight.2.2 ⟨none, none⟩ 3 3 (by decide)⟩

/-- `LocalTTSService.stop()`: the state afterwards, the audio-source
    handles stopped and disconnected, and the ids of pending requests
    rejected with the Stopped error.  (`stop` also emits a `tts:stopped`
    signal to the event bus on every run; the bus only notifies
    subscribers and holds no service state.) -/
def ttsStop {α : Type} (s : LocalTTSState α) :
    LocalTTSState α × List ℕ × List String :=
  let rel := match s.currentAudioSource with
    | some h => [h]
    | none => []
  let rejected := s.pendingTTS.map Prod.fst
  ({ s with
      currentAudioSource := none,
      chunkBuffer := [],
      chunkBufferTimeout := none,
      audioSegmentQueue := [],
      isPlayingQueue := false,
      pendingTTS := [],
      pendingMeta := none,
      isSpeaking := false },
   rel, rejected)

/-! ## LocalSTTService -/

inductive SttEnvelope
  | startSession (sid : ℕ)
  | stopSession (sid : ℕ)
deriving DecidableEq

inductive SttEvent
  | started | stopped
deriving DecidableEq

/-- The mutable fields of a LocalSTTService instance, together with the
    handle supplies and the observable traces: envelopes sent, events
    emitted, audio-stream tracks released, recorders stopped. -/
structure SttState where
  isListening : Bool
  sessionId : Option ℕ
  mediaRecorder : Option (ℕ × Bool)
  audioStream : Option ℕ
  wsOpen : Bool
  micCounter : ℕ
  idCounter : ℕ
  sent : List SttEnvelope
  emitted : List SttEvent
  released : List ℕ
  recorderStopped : List ℕ
deriving DecidableEq

inductive StartRes
  | noop | suspended
deriving DecidableEq

/-- The synchronous prefix of `LocalSTTService.start()`: only the
    `if (this._isListening) return;` guard runs before the first await
    (`ensureWebSocket`, then `getUserMedia`). -/
def sttStartA (s : SttState) : SttState × StartRes :=
  if s.isListening then (s, .noop) else (s, .suspended)

/-- The resumption of `start()` after both awaits succeed: acquire the
    capture device, generate a session id, send the session-start
    envelope, create and start the recorder, set the listening flag and
    emit `stt:started`.  (The error resumptions emit `stt:error` and
    return without acquiring anything; the claims concern the success
    path.) -/
def sttStartC (s : SttState) : SttState :=
  let mic := s.micCounter
  let sid := s.idCounter
  { s with
      audioStream := some mic,
      micCounter := mic + 1,
      sessionId := some sid,
      idCounter := sid + 1,
      sent := s.sent ++ [.startSession sid],
      mediaRecorder := some (mic, true),
      isListening := true,
      emitted := s.emitted ++ [.started] }

/-- `cleanup()`: stops and releases the audio-stream tracks, clears the
    recorder and the session id. -/
def sttCleanup (s : SttState) : SttState :=
  let s1 := match s.audioStream with
    | some h => { s with released := s.released ++ [h], audioStream := none }
    | none => s
  { s1 with mediaRecorder := none, sessionId := none }

/-- `LocalSTTService.stop()`: a no-op unless listening; otherwise stops
    the recorder if active, sends the session-stop envelope if the socket
    is open, runs `cleanup()`, clears the flag, emits `stt:stopped`. -/
def sttStop (s : SttState) : SttState :=
  if s.isListening = false then s
  else
    let s1 := match s.mediaRecorder with
      | some r =>
        if r.2 then { s with recorderStopped := s.recorderStopped ++ [r.1] }
        else s
      | none => s
    let s2 := match s1.sessionId with
      | some sid =>
        if s1.wsOpen then { s1 with sent := s1.sent ++ [.stopSession sid] }
        else s1
      | none => s1
    let s3 := sttCleanup s2
    { s3 with isListening := false, emitted := s3.emitted ++ [.stopped] }

/-- An idle service with an open channel. -/
def sttInit : SttState :=
  ⟨false, none, none, none, true, 0, 0, [], [], [], []⟩

/-- C6 counterexample: a first `start()` passes the guard and suspends at
    its awaits (the Starting window).  A second `start()` issued during
    that window also passes the guard — it is not a no-op — and when both
    resumptions run, two capture devices are acquired, two session ids
    generated and two session-start envelopes sent, the second silently
    overwriting the first device handle without releasing it. -/
theorem sttStart_during_starting_not_noop :
    (sttStartA sttInit).2 = .suspended ∧
    (sttStartA (sttStartA sttInit).1).2 = .suspended ∧
    (sttStartC (sttStartC (sttStartA (sttStartA sttInit).1).1)).micCounter = 2 ∧
    (sttStartC (sttStartC (sttStartA (sttStartA sttInit).1).1)).sent =
      [.startSession 0, .startSession 1] ∧
    (sttStartC (sttStartC (sttStartA (sttStartA sttInit).1).1)).released = [] ∧
    (sttStartC (sttStartC (sttStartA (sttStartA sttInit).1).1)).audioStream =
      some 1 := by
  decide

/-- C6 (amended): `start()` is a no-op — no state change, no device
    acquisition, no session id, no envelope — whenever the service is
    already Listening (the `_isListening` flag is set).  The flag is set
    only at the end of a successful start, so the guard does not cover
    the Starting window of a concurrently progressing `start()`; during
    that window a second `start()` proceeds (see the counterexample). -/
theorem sttStart_noop_when_listening (s : SttState)
    (h : s.isListening = true) : sttStartA s = (s, .noop) := by
  rw [sttStartA, if_pos h]

/-- Witness for the amended C6 at a listening state. -/
theorem sttStart_noop_when_listening_witness :
    (sttStartC sttInit).isListening = true ∧
    sttStartA (sttStartC sttInit) = (sttStartC sttInit, .noop) :=
  ⟨by decide, sttStart_noop_when_listening (sttStartC sttInit) (by decide)⟩

/-- C7: `stop()` is idempotent and safe in every state.  A second
    `LocalSTTService.stop()` right after a first is the identity — no
    recorder stop, no envelope, no release, no event.  A second
    `LocalTTSService.stop()` releases no audio source, rejects no pending
    request, and leaves the whole service state unchanged. -/
theorem stop_idempotent :
    (∀ s : SttState, sttStop (sttStop s) = sttStop s) ∧
    (∀ (α : Type) (s : LocalTTSState α),
       ttsStop (ttsStop s).1 = ((ttsStop s).1, [], [])) := by
  constructor
  · have hid : ∀ u : SttState, u.isListening = false → sttStop u = u := by
      intro u hu
      unfold sttStop
      rw [if_pos hu]
    intro s
    by_cases h : s.isListening = false
    · rw [hid s h, hid s h]
    · have h2 : (sttStop s).isListening = false := by
        unfold sttStop
        rw [if_neg h]
      exact hid _ h2
  · intro α s
    rfl

/-! ## Draining the segment queue -/

/-- `processSegmentQueue` of LocalTTSService.ts: shift the front segment,
    try to synthesize and play it — `ok` tells whether that try block
    succeeds for a given segment — catching a failure locally (the
    `console.error` log), then recurse on the rest.  Returns the spoken
    segments (the `tts:chunk-spoken` emissions) and the logged failures,
    each in order. -/
def processSegmentQueue (ok : List Char → Bool) :
    List (List Char) → List (List Char) × List (List Char)
  | [] => ([], [])
  | t :: rest =>
    let r := processSegmentQueue ok rest
    if ok t then (t :: r.1, r.2) else (r.1, t :: r.2)

/-- C8: draining the queue processes every queued segment in submission
    order: the spoken segments are exactly the successful ones in order,
    the logged ones exactly the failures in order, and every segment is
    accounted for — a failure on one segment never aborts or skips its
    siblings. -/
theorem processSegmentQueue_advances (ok : List Char → Bool)
    (q : List (List Char)) :
    processSegmentQueue ok q = (q.filter ok, q.filter (fun t => !(ok t))) ∧
    (processSegmentQueue ok q).1.length +
      (processSegmentQueue ok q).2.length = q.length := by
  have heq : ∀ r : List (List Char), processSegmentQueue ok r =
      (r.filter ok, r.filter (fun t => !(ok t))) := by
    intro r
    induction r with
    | nil => rfl
    | cons t rest ih =>
      by_cases h : ok t = true <;>
        simp [processSegmentQueue, List.filter_cons, h, ih]
  have hlen : ∀ r : List (List Char),
      (r.filter ok).length + (r.filter (fun t => !(ok t))).length
        = r.length := by
    intro r
    induction r with
    | nil => rfl
    | cons t rest ih =>
      by_cases h : ok t = true <;> simp [List.filter_cons, h] <;> omega
  refine ⟨heq q, ?_⟩
  rw [heq q]
  exact hlen q

end Atlas
